import Mathlib

/-!
Verification of the event-scanning and balance-aggregation core of the
`TokenBalanceTracker` class (`main.py`).

The embedding models:
* a raw log record (`RawLog`): topics (32-byte words as naturals), data
  (a byte sequence) and a block number;
* the address/amount decoding done inline in `calculate_balances` and
  `get_last_transaction_date` (`topics[1]`, `topics[2]`, `int(data.hex(), 16)`);
* the ledger as an insertion-ordered association list, mirroring a Python
  `defaultdict(int)` (a key is inserted the first time it is touched);
* the chunked block-range loops of `get_all_transfer_events` and
  `get_last_transaction_date` (fuel-based recursion; the fuel
  `(start - floor).toNat` dominates the number of loop iterations, which
  each strictly decrease `start`);
* the remote backend (`web3.eth.get_logs` / `get_block`) as explicit oracle
  functions returning `Except Unit _`, a raised exception being `.error ()`.

Python exceptions inside `calculate_balances` (IndexError on a topics list
shorter than 3, ValueError on empty data) are modelled by `Except`: the fold
aborts at the first malformed event, exactly as the Python for-loop does.
-/

/-- Raw log record as delivered by `web3.eth.get_logs`: `topics` are 32-byte
words (naturals below 2^256), `data` a byte string, `blockNumber` a natural. -/
structure RawLog where
  topics : List Nat
  data : List Nat
  blockNumber : Nat
deriving DecidableEq

/-- Address extraction `'0x' + topic.hex()[26:]`: the low 20 bytes of a
32-byte topic word. -/
def addrOfTopic (t : Nat) : Nat := t % 2 ^ 160

/-- Amount decoding `int(event['data'].hex(), 16)`: big-endian bytes; the
parse raises (returns `none`) exactly on an empty byte string (`int('0x', 16)`
is a ValueError; any nonempty byte string parses as an unsigned integer). -/
def parseData (bs : List Nat) : Option Nat :=
  match bs with
  | [] => none
  | _ :: _ => some (bs.foldl (fun a b => a * 256 + b) 0)

/-- Decoding of one event as done inline in `calculate_balances`:
`topics[1]` and `topics[2]` give sender and receiver (raising IndexError when
fewer than 3 topics are present), `data` gives the amount. `none` models the
raised exception. -/
def decodeEvent (e : RawLog) : Option (Nat × Nat × Nat) :=
  match e.topics with
  | _ :: t1 :: t2 :: _ =>
      (parseData e.data).map (fun v => (addrOfTopic t1, addrOfTopic t2, v))
  | _ => none

/-- Ledger update mirroring `balances[addr] += d` on a `defaultdict(int)`:
the first occurrence of the key is updated in place, a missing key is
appended at the end (Python dicts preserve insertion order). -/
def updateBal (l : List (Nat × Int)) (a : Nat) (d : Int) : List (Nat × Int) :=
  match l with
  | [] => [(a, d)]
  | (k, v) :: rest => if k = a then (k, v + d) :: rest else (k, v) :: updateBal rest a d

/-- Balance read with the `defaultdict` default: the value at the first
occurrence of the key, `0` when absent. -/
def lookupD (l : List (Nat × Int)) (a : Nat) : Int :=
  match l with
  | [] => 0
  | (k, v) :: rest => if k = a then v else lookupD rest a

/-- Key membership in the ledger. -/
def keyOf (l : List (Nat × Int)) (a : Nat) : Bool :=
  l.any (fun p => p.1 == a)

/-- One guarded ledger update, `if addr != '0x0000...0000': balances[addr] += d`. -/
def condUpdate (c : Prop) [Decidable c] (l : List (Nat × Int)) (k : Nat) (d : Int) :
    List (Nat × Int) :=
  if c then updateBal l k d else l

/-- Loop body of `calculate_balances` for one event, in the total case:
debit the sender unless it is the zero address, then credit the receiver
unless it is the zero address. A malformed event leaves the ledger unchanged
(this branch is only reached through `applyEvent`, which raises instead). -/
def stepEvent (l : List (Nat × Int)) (e : RawLog) : List (Nat × Int) :=
  match decodeEvent e with
  | none => l
  | some (f, t, v) =>
      condUpdate (t ≠ 0) (condUpdate (f ≠ 0) l f (-(v : Int))) t (v : Int)

/-- One iteration of the `calculate_balances` loop: a malformed event raises
(IndexError / ValueError), otherwise the ledger is updated. -/
def applyEvent (l : List (Nat × Int)) (e : RawLog) : Except Unit (List (Nat × Int)) :=
  match decodeEvent e with
  | none => .error ()
  | some _ => .ok (stepEvent l e)

/-- The `for event in events` loop of `calculate_balances`: left fold that
aborts at the first raised exception. -/
def calcLoop (l : List (Nat × Int)) : List RawLog → Except Unit (List (Nat × Int))
  | [] => .ok l
  | e :: rest =>
      match applyEvent l e with
      | .error u => .error u
      | .ok l' => calcLoop l' rest

/-- `calculate_balances(events)` from `main.py`, lines 91-110: fold the
events into a fresh `defaultdict(int)` ledger. -/
def calculate_balances (events : List RawLog) : Except Unit (List (Nat × Int)) :=
  calcLoop [] events

-- Basic ledger lemmas

theorem lookupD_updateBal (l : List (Nat × Int)) (k : Nat) (d : Int) (a : Nat) :
    lookupD (updateBal l k d) a = if k = a then lookupD l a + d else lookupD l a := by
  induction l with
  | nil =>
      by_cases h : k = a <;> simp [updateBal, lookupD, h]
  | cons p rest ih =>
      obtain ⟨k', v⟩ := p
      by_cases hk : k' = k
      · subst hk
        by_cases h : k' = a <;> simp [updateBal, lookupD, h]
      · by_cases h : k' = a
        · subst h
          have : ¬ k = k' := fun hh => hk hh.symm
          simp [updateBal, lookupD, hk, this]
        · simp [updateBal, lookupD, hk, h, ih]

theorem keyOf_updateBal (l : List (Nat × Int)) (k : Nat) (d : Int) (a : Nat) :
    keyOf (updateBal l k d) a = (keyOf l a || k == a) := by
  induction l with
  | nil => simp [updateBal, keyOf]
  | cons p rest ih =>
      obtain ⟨k', v⟩ := p
      by_cases hk : k' = k
      · subst hk
        simp [updateBal, keyOf]
        tauto
      · simp only [updateBal, if_neg hk, keyOf, List.any_cons] at *
        rw [ih]
        cases h : (k' == a) <;> simp [h]

/-- Ledger total: the sum of all stored balances. -/
def sumBalances (l : List (Nat × Int)) : Int := (l.map Prod.snd).sum

theorem sumBalances_updateBal (l : List (Nat × Int)) (k : Nat) (d : Int) :
    sumBalances (updateBal l k d) = sumBalances l + d := by
  induction l with
  | nil => simp [updateBal, sumBalances]
  | cons p rest ih =>
      obtain ⟨k', v⟩ := p
      by_cases hk : k' = k
      · subst hk; simp [updateBal, sumBalances]; ring
      · simp [updateBal, hk, sumBalances] at *
        rw [ih]; ring

theorem calcLoop_error_iff (E : List RawLog) : ∀ l : List (Nat × Int),
    calcLoop l E = .error () ↔ ∃ e ∈ E, decodeEvent e = none := by
  induction E with
  | nil => intro l; simp [calcLoop]
  | cons e rest ih =>
      intro l
      cases hd : decodeEvent e with
      | none => simp [calcLoop, applyEvent, hd]
      | some ftv => simp [calcLoop, applyEvent, hd, ih]

theorem calcLoop_ok_of_wf (E : List RawLog) : ∀ l : List (Nat × Int),
    (∀ e ∈ E, decodeEvent e ≠ none) → calcLoop l E = .ok (E.foldl stepEvent l) := by
  induction E with
  | nil => intro l _; simp [calcLoop]
  | cons e rest ih =>
      intro l hwf
      cases hd : decodeEvent e with
      | none => exact absurd hd (hwf e (by simp))
      | some ftv =>
          simp only [calcLoop, applyEvent, hd, List.foldl_cons]
          exact ih (stepEvent l e) (fun e' he' => hwf e' (by simp [he']))

theorem calcLoop_ok (E : List RawLog) : ∀ l lr : List (Nat × Int),
    calcLoop l E = .ok lr → lr = E.foldl stepEvent l := by
  induction E with
  | nil =>
      intro l lr h
      simp only [calcLoop] at h
      cases h
      simp
  | cons e rest ih =>
      intro l lr h
      cases hd : decodeEvent e with
      | none => simp [calcLoop, applyEvent, hd] at h
      | some ftv =>
          simp only [calcLoop, applyEvent, hd] at h
          simpa using ih (stepEvent l e) lr h

/-- Net effect of one event on address `a`: debit if `a` is a nonzero sender,
credit if `a` is a nonzero receiver. -/
def eventDelta (a : Nat) (e : RawLog) : Int :=
  match decodeEvent e with
  | none => 0
  | some (f, t, v) =>
      (if f ≠ 0 ∧ f = a then -(v : Int) else 0) + (if t ≠ 0 ∧ t = a then (v : Int) else 0)

/-- Whether the event inserts address `a` into the ledger (as a nonzero
sender or a nonzero receiver). -/
def touches (e : RawLog) (a : Nat) : Bool :=
  match decodeEvent e with
  | none => false
  | some (f, t, _) => (decide (f ≠ 0) && (f == a)) || (decide (t ≠ 0) && (t == a))

theorem lookupD_condUpdate (c : Prop) [Decidable c] (l : List (Nat × Int)) (k : Nat)
    (d : Int) (a : Nat) :
    lookupD (condUpdate c l k d) a = lookupD l a + (if c ∧ k = a then d else 0) := by
  by_cases hc : c <;> by_cases hk : k = a <;> simp [condUpdate, hc, hk, lookupD_updateBal]

theorem keyOf_condUpdate (c : Prop) [Decidable c] (l : List (Nat × Int)) (k : Nat)
    (d : Int) (a : Nat) :
    keyOf (condUpdate c l k d) a = (keyOf l a || (decide c && (k == a))) := by
  by_cases hc : c <;> simp [condUpdate, hc, keyOf_updateBal]

theorem lookupD_stepEvent (l : List (Nat × Int)) (e : RawLog) (a : Nat) :
    lookupD (stepEvent l e) a = lookupD l a + eventDelta a e := by
  unfold stepEvent eventDelta
  cases hd : decodeEvent e with
  | none => simp
  | some ftv =>
      obtain ⟨f, t, v⟩ := ftv
      rw [lookupD_condUpdate, lookupD_condUpdate]
      ring

theorem keyOf_stepEvent (l : List (Nat × Int)) (e : RawLog) (a : Nat) :
    keyOf (stepEvent l e) a = (keyOf l a || touches e a) := by
  unfold stepEvent touches
  cases hd : decodeEvent e with
  | none => simp
  | some ftv =>
      obtain ⟨f, t, v⟩ := ftv
      rw [keyOf_condUpdate, keyOf_condUpdate, Bool.or_assoc]

theorem lookupD_foldl (E : List RawLog) : ∀ (l : List (Nat × Int)) (a : Nat),
    lookupD (E.foldl stepEvent l) a = lookupD l a + (E.map (eventDelta a)).sum := by
  induction E with
  | nil => intro l a; simp
  | cons e rest ih =>
      intro l a
      simp only [List.foldl_cons, List.map_cons, List.sum_cons, ih, lookupD_stepEvent]
      ring

theorem keyOf_foldl (E : List RawLog) : ∀ (l : List (Nat × Int)) (a : Nat),
    keyOf (E.foldl stepEvent l) a = (keyOf l a || E.any (fun e => touches e a)) := by
  induction E with
  | nil => intro l a; simp
  | cons e rest ih =>
      intro l a
      simp only [List.foldl_cons, List.any_cons, ih, keyOf_stepEvent, Bool.or_assoc]

theorem perm_any_eq {α : Type} {l1 l2 : List α} (h : l1.Perm l2) (p : α → Bool) :
    l1.any p = l2.any p := by
  cases h1 : l1.any p with
  | true =>
      rw [List.any_eq_true] at h1
      obtain ⟨x, hx, hp⟩ := h1
      exact ((List.any_eq_true).mpr ⟨x, h.mem_iff.mp hx, hp⟩).symm
  | false =>
      rw [List.any_eq_false] at h1
      exact ((List.any_eq_false).mpr (fun x hx => h1 x (h.mem_iff.mpr hx))).symm

/-- Extensional equality of two `calculate_balances` results: both raise, or
both succeed with the same key set and the same balance at every address. -/
def ledgerEquiv (x y : Except Unit (List (Nat × Int))) : Prop :=
  match x, y with
  | .ok l1, .ok l2 => (∀ a, keyOf l1 a = keyOf l2 a) ∧ (∀ a, lookupD l1 a = lookupD l2 a)
  | .error _, .error _ => True
  | .ok _, .error _ => False
  | .error _, .ok _ => False

/-- C2: for every finite multiset of transfer events and every permutation of
it, `calculate_balances` returns the same ledger: the same set of address keys
and the same signed balance for every key (and on a malformed multiset both
orderings raise). -/
theorem calculate_balances_perm_invariant (E E' : List RawLog) (h : E.Perm E') :
    ledgerEquiv (calculate_balances E) (calculate_balances E') := by
  by_cases hm : ∃ e ∈ E, decodeEvent e = none
  · have hm' : ∃ e ∈ E', decodeEvent e = none := by
      obtain ⟨e, he, hd⟩ := hm
      exact ⟨e, h.mem_iff.mp he, hd⟩
    have h1 : calculate_balances E = .error () := (calcLoop_error_iff E []).mpr hm
    have h2 : calculate_balances E' = .error () := (calcLoop_error_iff E' []).mpr hm'
    simp [ledgerEquiv, h1, h2]
  · have hm' : ¬ ∃ e ∈ E', decodeEvent e = none := by
      intro hc
      obtain ⟨e, he, hd⟩ := hc
      exact hm ⟨e, h.mem_iff.mpr he, hd⟩
    push_neg at hm hm'
    have h1 : calculate_balances E = .ok (E.foldl stepEvent []) := calcLoop_ok_of_wf E [] hm
    have h2 : calculate_balances E' = .ok (E'.foldl stepEvent []) := calcLoop_ok_of_wf E' [] hm'
    simp only [calculate_balances] at h1 h2
    simp only [ledgerEquiv, calculate_balances, h1, h2]
    constructor
    · intro a
      rw [keyOf_foldl, keyOf_foldl]
      exact congrArg _ (perm_any_eq h _)
    · intro a
      rw [lookupD_foldl, lookupD_foldl]
      exact congrArg _ ((h.map (eventDelta a)).sum_eq)

-- Concrete events used by witnesses and counterexamples

/-- A well-formed transfer 5 → 6 of 100 at block 10. -/
def evA : RawLog := ⟨[9, 5, 6], [100], 10⟩

/-- A well-formed transfer 6 → 7 of 40 at block 20. -/
def evB : RawLog := ⟨[9, 6, 7], [40], 20⟩

/-- A malformed log: only two topics, so `topics[2]` raises IndexError. -/
def badLog : RawLog := ⟨[9, 5], [1], 3⟩

/-- A mint: sender topic decodes to the zero address, 100 tokens to 5. -/
def mintLog : RawLog := ⟨[9, 0, 5], [100], 3⟩

/-- A burn: receiver topic decodes to the zero address, 20 tokens from 6. -/
def burnLog : RawLog := ⟨[9, 6, 0], [20], 5⟩

/-- C2 witness: a concrete two-event multiset and its transposition get the
same key set and the same balance at every address. -/
theorem calculate_balances_perm_invariant_witness :
    ([evA, evB] : List RawLog).Perm [evB, evA] ∧
      ledgerEquiv (calculate_balances [evA, evB]) (calculate_balances [evB, evA]) :=
  ⟨List.Perm.swap evB evA [],
    calculate_balances_perm_invariant [evA, evB] [evB, evA] (List.Perm.swap evB evA [])⟩

theorem decodeEvent_eq_none (e : RawLog) (h : e.topics.length < 3 ∨ e.data = []) :
    decodeEvent e = none := by
  obtain ⟨ts, ds, bn⟩ := e
  match ts with
  | [] => rfl
  | [t0] => rfl
  | [t0, t1] => rfl
  | t0 :: t1 :: t2 :: rest =>
      rcases h with h | h
      · simp at h
        omega
      · subst h
        simp [decodeEvent, parseData]

/-- C6 (amended): a fetched log with fewer than 3 topics or undecodable
(empty) data makes the whole `calculate_balances` call raise: the loop has no
per-event recovery, so the event is not skipped — the entire aggregation
aborts. -/
theorem calculate_balances_malformed_aborts (E : List RawLog)
    (h : ∃ e ∈ E, e.topics.length < 3 ∨ e.data = []) :
    calculate_balances E = .error () := by
  apply (calcLoop_error_iff E []).mpr
  obtain ⟨e, he, hc⟩ := h
  exact ⟨e, he, decodeEvent_eq_none e hc⟩

/-- C6 counterexample: with the malformed `badLog` followed by the well-formed
`evA`, `calculate_balances` raises for the whole call instead of skipping the
single bad event — had it skipped it, the result would have been the ledger
of `[evA]` alone, which is shown alongside. -/
theorem calculate_balances_malformed_not_skipped :
    calculate_balances [badLog, evA] = .error () ∧
      calculate_balances [evA] = .ok [(5, -100), (6, 100)] := by
  constructor
  · rfl
  · rfl

/-- C6 witness: the malformed singleton list satisfies the hypothesis and the
call raises. -/
theorem calculate_balances_malformed_aborts_witness :
    (∃ e ∈ [badLog], e.topics.length < 3 ∨ e.data = []) ∧
      calculate_balances [badLog] = .error () :=
  ⟨by decide, calculate_balances_malformed_aborts [badLog] (by decide)⟩

theorem touches_zero (e : RawLog) : touches e 0 = false := by
  unfold touches
  cases hd : decodeEvent e with
  | none => rfl
  | some ftv =>
      obtain ⟨f, t, v⟩ := ftv
      by_cases hf : f = 0 <;> by_cases ht : t = 0 <;> simp [hf, ht]

/-- C7: the zero address is never a key of any ledger `calculate_balances`
returns — it is neither debited as a sender nor credited as a receiver. -/
theorem zero_address_never_key (E : List RawLog) (l : List (Nat × Int))
    (h : calculate_balances E = .ok l) : keyOf l 0 = false := by
  rw [calcLoop_ok E [] l h, keyOf_foldl]
  simp [keyOf, touches_zero]

/-- C7 witness: a mint followed by a burn produces the ledger
`[(5, 100), (6, -20)]`, which does not contain the zero address. -/
theorem zero_address_never_key_witness :
    calculate_balances [mintLog, burnLog] = .ok [(5, 100), (6, -20)] ∧
      keyOf [(5, 100), (6, -20)] 0 = false :=
  ⟨rfl, zero_address_never_key [mintLog, burnLog] [(5, 100), (6, -20)] rfl⟩

-- Conservation analysis (C9)

/-- Amount minted by one event: a transfer whose sender decodes to the zero
address and whose receiver does not (the ledger only gains the credit). -/
def mintedOf (e : RawLog) : Int :=
  match decodeEvent e with
  | none => 0
  | some (f, t, v) => if f = 0 ∧ t ≠ 0 then (v : Int) else 0

/-- Amount burned by one event: a transfer whose receiver decodes to the zero
address and whose sender does not (the ledger only loses the debit). -/
def burnedOf (e : RawLog) : Int :=
  match decodeEvent e with
  | none => 0
  | some (f, t, v) => if t = 0 ∧ f ≠ 0 then (v : Int) else 0

def mintedTotal (E : List RawLog) : Int := (E.map mintedOf).sum

def burnedTotal (E : List RawLog) : Int := (E.map burnedOf).sum

theorem sumBalances_condUpdate (c : Prop) [Decidable c] (l : List (Nat × Int)) (k : Nat)
    (d : Int) :
    sumBalances (condUpdate c l k d) = sumBalances l + (if c then d else 0) := by
  by_cases hc : c <;> simp [condUpdate, hc, sumBalances_updateBal]

theorem sumBalances_stepEvent (l : List (Nat × Int)) (e : RawLog) :
    sumBalances (stepEvent l e) = sumBalances l + mintedOf e - burnedOf e := by
  unfold stepEvent mintedOf burnedOf
  cases hd : decodeEvent e with
  | none => simp
  | some ftv =>
      obtain ⟨f, t, v⟩ := ftv
      rw [sumBalances_condUpdate, sumBalances_condUpdate]
      by_cases hf : f = 0 <;> by_cases ht : t = 0 <;> simp [hf, ht] <;> ring

theorem sumBalances_foldl (E : List RawLog) : ∀ l : List (Nat × Int),
    sumBalances (E.foldl stepEvent l) = sumBalances l + mintedTotal E - burnedTotal E := by
  induction E with
  | nil => intro l; simp [mintedTotal, burnedTotal]
  | cons e rest ih =>
      intro l
      simp only [List.foldl_cons, ih, sumBalances_stepEvent, mintedTotal, burnedTotal,
        List.map_cons, List.sum_cons]
      ring

/-- C9 (amended): the total of every ledger `calculate_balances` returns is
the total minted minus the total burned in the event list — the conservation
law `sum = 0` holds exactly when those cancel (in particular when no
mint/burn event occurs), and completeness of the history does not force it. -/
theorem sumBalances_eq_minted_sub_burned (E : List RawLog) (l : List (Nat × Int))
    (h : calculate_balances E = .ok l) :
    sumBalances l = mintedTotal E - burnedTotal E := by
  rw [calcLoop_ok E [] l h, sumBalances_foldl]
  simp [sumBalances]

/-- Modelled from the spec: "the look-back window covers every transfer since
contract genesis". No function of the source computes this property of an
event list, so it is formalised from the spec's words: all events decode, and
every prefix of the history (processed in order) leaves every address with a
nonnegative balance — on a chain an address can never send tokens it has not
received, so a history complete from genesis satisfies this, while a
truncated window is exactly what can violate it (the spec: "partial windows
can observe an outflow without its matching inflow"). -/
def CompleteSinceGenesis (E : List RawLog) : Prop :=
  (∀ e ∈ E, decodeEvent e ≠ none) ∧
    ∀ k : Nat, ∀ l : List (Nat × Int),
      calculate_balances (List.take k E) = .ok l → ∀ a : Nat, 0 ≤ lookupD l a

/-- C9 counterexample: the one-event history consisting of a single mint of
100 tokens is complete since genesis, yet its ledger sums to 100, not 0 —
a mint credits the receiver without debiting anyone, so the claimed
conservation law fails on any complete history with mints. -/
theorem conservation_fails_on_complete_history :
    CompleteSinceGenesis [mintLog] ∧
      calculate_balances [mintLog] = .ok [(5, 100)] ∧
      sumBalances [(5, 100)] ≠ 0 := by
  refine ⟨⟨by decide, ?_⟩, rfl, by decide⟩
  intro k l h a
  match k with
  | 0 =>
      cases h
      simp [lookupD]
  | Nat.succ k =>
      have hk : List.take (k + 1) [mintLog] = [mintLog] := by simp
      rw [hk] at h
      have hv : calculate_balances [mintLog] = .ok [(5, 100)] := rfl
      rw [hv] at h
      cases h
      unfold lookupD
      split
      · omega
      · simp [lookupD]

/-- C9 witness for the amended claim: a mint of 100 to address 5, an ordinary
transfer 5 → 6 of 100 and a burn of 20 from address 6 yield the ledger
`[(5, 0), (6, 80)]`, whose total 80 is `mintedTotal - burnedTotal = 100 - 20`. -/
theorem sumBalances_eq_minted_sub_burned_witness :
    calculate_balances [mintLog, evA, burnLog] = .ok [(5, 0), (6, 80)] ∧
      sumBalances [(5, 0), (6, 80)] =
        mintedTotal [mintLog, evA, burnLog] - burnedTotal [mintLog, evA, burnLog] :=
  ⟨rfl, sumBalances_eq_minted_sub_burned [mintLog, evA, burnLog] [(5, 0), (6, 80)] rfl⟩

-- Range scheduling (get_all_transfer_events, lines 62-89)

/-- The while-loop of `get_all_transfer_events` (lines 74-79): collect each
iteration's `(end_block, start_block)` pair, the `fromBlock`/`toBlock` of one
chunk fetch, with `end_block = max(start_block - 50000 + 1, end_block_limit)`
and the next `start_block = end_block - 1`. Block numbers are `Int`, matching
Python's signed integers (`start_block` ends below zero). Each iteration
strictly decreases `start_block`, so `(start_block - end_block_limit).toNat`
iterations always suffice; the recursion carries exactly that fuel. -/
def buildRangesAux (fuel : Nat) (startBlock endBlockLimit : Int) : List (Int × Int) :=
  match fuel with
  | 0 => []
  | fuel + 1 =>
      if startBlock > endBlockLimit then
        (max (startBlock - 50000 + 1) endBlockLimit, startBlock) ::
          buildRangesAux fuel (max (startBlock - 50000 + 1) endBlockLimit - 1) endBlockLimit
      else []

def buildRanges (startBlock endBlockLimit : Int) : List (Int × Int) :=
  buildRangesAux (startBlock - endBlockLimit).toNat startBlock endBlockLimit

/-- The chunk schedule of `get_all_transfer_events` for a given latest block,
with `end_block_limit = max(latest_block - 1000000, 0)` (line 72). -/
def scheduledRanges (latestBlock : Int) : List (Int × Int) :=
  buildRanges latestBlock (max (latestBlock - 1000000) 0)

theorem buildRangesAux_mem (fuel : Nat) : ∀ s f : Int, ∀ r ∈ buildRangesAux fuel s f,
    f ≤ r.1 ∧ r.1 ≤ r.2 ∧ r.2 ≤ s ∧ r.2 - r.1 + 1 ≤ 50000 := by
  induction fuel with
  | zero => intro s f r hr; simp [buildRangesAux] at hr
  | succ fuel ih =>
      intro s f r hr
      simp only [buildRangesAux] at hr
      split at hr
      case isTrue h =>
          rcases List.mem_cons.mp hr with rfl | hr
          · simp only
            omega
          · have := ih _ f r hr
            omega
      case isFalse h => simp at hr

theorem buildRangesAux_head (fuel : Nat) (s f : Int) (p : Int × Int)
    (h : (buildRangesAux fuel s f).head? = some p) : p.2 = s := by
  match fuel with
  | 0 => simp [buildRangesAux] at h
  | fuel + 1 =>
      simp only [buildRangesAux] at h
      split at h
      · rw [List.head?_cons, Option.some.injEq] at h
        rw [← h]
      · simp at h

theorem buildRangesAux_chain (fuel : Nat) : ∀ s f : Int,
    List.Chain' (fun r q => q.2 + 1 = r.1) (buildRangesAux fuel s f) := by
  induction fuel with
  | zero => intro s f; simp [buildRangesAux]
  | succ fuel ih =>
      intro s f
      simp only [buildRangesAux]
      split
      case isTrue h =>
          rw [List.chain'_cons']
          refine ⟨?_, ih _ _⟩
          intro q hq
          have := buildRangesAux_head fuel _ f q hq
          omega
      case isFalse h => simp

theorem buildRangesAux_pairwise (fuel : Nat) : ∀ s f : Int,
    (buildRangesAux fuel s f).Pairwise (fun r q => q.2 < r.1) := by
  induction fuel with
  | zero => intro s f; simp [buildRangesAux]
  | succ fuel ih =>
      intro s f
      simp only [buildRangesAux]
      split
      case isTrue h =>
          rw [List.pairwise_cons]
          refine ⟨?_, ih _ _⟩
          intro q hq
          have := buildRangesAux_mem fuel _ f q hq
          omega
      case isFalse h => simp

theorem buildRangesAux_coverage (fuel : Nat) : ∀ s f x : Int, (s - f).toNat ≤ fuel →
    ((∃ r ∈ buildRangesAux fuel s f, r.1 ≤ x ∧ x ≤ r.2) ↔
      ((if (s - f) % 50000 = 0 then f + 1 else f) ≤ x ∧ x ≤ s)) := by
  induction fuel with
  | zero =>
      intro s f x hfuel
      simp only [buildRangesAux, List.not_mem_nil]
      constructor
      · rintro ⟨r, hr, -⟩
        simp at hr
      · intro hx
        exfalso
        split at hx <;> omega
  | succ fuel ih =>
      intro s f x hfuel
      simp only [buildRangesAux]
      split
      case isTrue h =>
          rw [List.exists_mem_cons_iff,
            ih (max (s - 50000 + 1) f - 1) f x (by omega)]
          split_ifs <;> constructor <;> intro hx <;>
            simp only at hx ⊢ <;> omega
      case isFalse h =>
          constructor
          · rintro ⟨r, hr, -⟩
            simp at hr
          · intro hx
            exfalso
            split at hx <;> omega

/-- C1 counterexample: at `latestBlock = 50000` the window floor is
`max(50000 - 1000000, 0) = 0`, but the only scheduled chunk is
`[1, 50000]` — block 0, inside the claimed interval `[0, 50000]`, is fetched
by no chunk, so the union does not cover the claimed interval. -/
theorem scheduler_misses_window_floor :
    max ((50000 : Int) - 1000000) 0 = 0 ∧
      scheduledRanges 50000 = [(1, 50000)] ∧
      ¬ ∃ r ∈ scheduledRanges 50000, r.1 ≤ 0 ∧ 0 ≤ r.2 := by
  refine ⟨by decide, by decide, ?_⟩
  decide

/-- C1 (amended): the chunks scheduled by `get_all_transfer_events` are
contiguous, non-overlapping (newest first) and at most 50000 blocks wide, and
their union is exactly `[floor, latestBlock]` with
`floor = max(latestBlock - 1000000, 0)` — except that the floor block itself
is left out whenever `latestBlock - floor` is a multiple of 50000 (in
particular for every `latestBlock > 1000000`, where the window is exactly
1000000 blocks wide, and for `latestBlock = 0`, where no chunk is scheduled
at all). -/
theorem scheduled_ranges_partition (latestBlock : Int) (h : 0 ≤ latestBlock) :
    (∀ r ∈ scheduledRanges latestBlock,
        max (latestBlock - 1000000) 0 ≤ r.1 ∧ r.1 ≤ r.2 ∧ r.2 ≤ latestBlock ∧
          r.2 - r.1 + 1 ≤ 50000) ∧
      List.Chain' (fun r q => q.2 + 1 = r.1) (scheduledRanges latestBlock) ∧
      (scheduledRanges latestBlock).Pairwise (fun r q => q.2 < r.1) ∧
      (∀ x : Int,
        (∃ r ∈ scheduledRanges latestBlock, r.1 ≤ x ∧ x ≤ r.2) ↔
          ((if (latestBlock - max (latestBlock - 1000000) 0) % 50000 = 0
              then max (latestBlock - 1000000) 0 + 1
              else max (latestBlock - 1000000) 0) ≤ x ∧ x ≤ latestBlock)) := by
  refine ⟨?_, ?_, ?_, ?_⟩
  · exact buildRangesAux_mem _ _ _
  · exact buildRangesAux_chain _ _ _
  · exact buildRangesAux_pairwise _ _ _
  · intro x
    exact buildRangesAux_coverage _ _ _ x (le_refl _)

/-- C1 witness: at `latestBlock = 120000` the hypothesis holds and, the window
width 120000 not being a multiple of 50000, the floor block 0 is covered. -/
theorem scheduled_ranges_partition_witness :
    0 ≤ (120000 : Int) ∧ ∃ r ∈ scheduledRanges 120000, r.1 ≤ 0 ∧ 0 ≤ r.2 :=
  ⟨by decide,
    ((scheduled_ranges_partition 120000 (by decide)).2.2.2 0).mpr (by decide)⟩

-- Concurrent fan-out and join (get_all_transfer_events, lines 74-89)

/-- The join point after `asyncio.gather(*tasks, return_exceptions=True)`
(lines 81-87): each result that is an exception is logged and skipped, each
successful result extends `all_events` in task order. -/
def collectResults (results : List (Except Unit (List RawLog))) : List RawLog :=
  results.foldl
    (fun acc r => match r with | .ok logs => acc ++ logs | .error _ => acc) []

/-- `get_all_transfer_events` (lines 62-89), the backend call
(`get_transfer_events`, i.e. `web3.eth.get_logs` over one chunk) supplied as
an oracle `fetch fromBlock toBlock`; the task list is the fetch applied to
every scheduled range, in loop order. -/
def get_all_transfer_events (fetch : Int → Int → Except Unit (List RawLog))
    (latestBlock : Int) : List RawLog :=
  collectResults ((scheduledRanges latestBlock).map (fun r => fetch r.1 r.2))

def okValue : Except Unit (List RawLog) → Option (List RawLog)
  | .ok logs => some logs
  | .error _ => none

def flattenChunks : List (List RawLog) → List RawLog
  | [] => []
  | c :: cs => c ++ flattenChunks cs

theorem collectResults_go (results : List (Except Unit (List RawLog))) :
    ∀ acc : List RawLog,
      results.foldl
        (fun acc r => match r with | .ok logs => acc ++ logs | .error _ => acc) acc
        = acc ++ flattenChunks (results.filterMap okValue) := by
  induction results with
  | nil => intro acc; simp [flattenChunks]
  | cons r rest ih =>
      intro acc
      cases r with
      | ok logs => simp [okValue, ih, flattenChunks]
      | error u => simp [okValue, ih]

/-- C8: whatever chunk fetches fail, `get_all_transfer_events` totally
returns the concatenation, in schedule order, of exactly the successfully
fetched chunks' logs — failed chunks are absorbed at the join point. -/
theorem get_all_transfer_events_partial_failure
    (fetch : Int → Int → Except Unit (List RawLog)) (latestBlock : Int) :
    get_all_transfer_events fetch latestBlock =
      flattenChunks
        ((scheduledRanges latestBlock).filterMap (fun r => okValue (fetch r.1 r.2))) := by
  unfold get_all_transfer_events collectResults
  rw [collectResults_go]
  simp only [List.filterMap_map, List.nil_append]
  rfl

-- Last-activity scan (get_last_transaction_date, lines 134-171)

/-- Inner `for log in logs` loop of `get_last_transaction_date` (lines
152-156): decode sender and receiver of each log (`topics[1]`/`topics[2]`;
fewer than 3 topics raises IndexError, caught by the surrounding try) and,
when the queried address appears as either, keep
`max(last_transaction_block or 0, log['blockNumber'])`. On a raise the
updates made by the chunk's earlier logs survive: the error value carries the
accumulator reached at the failing log. -/
def processLogs (address : Nat) :
    List RawLog → Option Nat → Except (Option Nat) (Option Nat)
  | [], acc => .ok acc
  | log :: rest, acc =>
      match log.topics with
      | _ :: t1 :: t2 :: _ =>
          if address = addrOfTopic t1 ∨ address = addrOfTopic t2 then
            processLogs address rest (some (max (acc.getD 0) log.blockNumber))
          else
            processLogs address rest acc
      | _ => .error acc

/-- The try-block of one loop iteration (lines 150-159): fetch one chunk and
fold its logs through `processLogs`. `.error x` means the iteration raised —
caught, logged and turned into a `break` with accumulator `x` (a failed fetch
leaves the accumulator as it was; a decode failure keeps the updates made by
that chunk's earlier logs); `.ok` means the loop continues. -/
def chunkStep (fetch : Int → Int → Except Unit (List RawLog)) (address : Nat)
    (lo hi : Int) (acc : Option Nat) : Except (Option Nat) (Option Nat) :=
  match fetch lo hi with
  | .error _ => .error acc
  | .ok logs => processLogs address logs acc

/-- The while-loop of `get_last_transaction_date` (lines 148-161), fuelled
like `buildRangesAux`. A raise inside the try block `break`s: the loop stops
and returns the accumulator gathered so far. -/
def scanLoopAux (fetch : Int → Int → Except Unit (List RawLog)) (address : Nat) :
    Nat → Int → Int → Option Nat → Option Nat
  | 0, _, _, acc => acc
  | fuel + 1, startBlock, endBlockLimit, acc =>
      if startBlock > endBlockLimit then
        match chunkStep fetch address
            (max (startBlock - 50000 + 1) endBlockLimit) startBlock acc with
        | .error accBreak => accBreak
        | .ok acc' =>
            scanLoopAux fetch address fuel
              (max (startBlock - 50000 + 1) endBlockLimit - 1) endBlockLimit acc'
      else acc

def scanLoop (fetch : Int → Int → Except Unit (List RawLog)) (address : Nat)
    (startBlock endBlockLimit : Int) (acc : Option Nat) : Option Nat :=
  scanLoopAux fetch address (startBlock - endBlockLimit).toNat startBlock endBlockLimit acc

/-- Result of `get_last_transaction_date`: either the ISO-8601 rendering of a
block timestamp (`datetime.fromtimestamp(ts, timezone.utc).isoformat()` is
injective in the timestamp, so the timestamp is carried abstractly) or the
literal string `'N/A'`. The same literal `'N/A'` is returned both on "no
activity" and on a failed `get_block` — the single constructor `notAvailable`
models that one string. -/
inductive LastDateResult where
  | iso (timestamp : Nat)
  | notAvailable
deriving DecidableEq

/-- `get_last_transaction_date(address)` (lines 134-171): scan the window for
the address, then test `if last_transaction_block:` — Python truthiness, so
both `None` and `0` fall through to the final `return 'N/A'` — and on a
truthy block number resolve the timestamp via `web3.eth.get_block` (the
`getBlock` oracle, giving the block's timestamp), returning `'N/A'` if that
raises. -/
def get_last_transaction_date (fetch : Int → Int → Except Unit (List RawLog))
    (getBlock : Nat → Except Unit Nat) (latestBlock : Int) (address : Nat) :
    LastDateResult :=
  match scanLoop fetch address latestBlock (max (latestBlock - 1000000) 0) none with
  | some b =>
      if b ≠ 0 then
        match getBlock b with
        | .ok ts => .iso ts
        | .error _ => .notAvailable
      else .notAvailable
  | none => .notAvailable

/-- Chunk-list view of the same scan: walk the scheduled chunks newest first
and stop at the first chunk whose fetch or per-log decoding raises, returning
the accumulator reached at that point. -/
def scanChunks (fetch : Int → Int → Except Unit (List RawLog)) (address : Nat) :
    List (Int × Int) → Option Nat → Option Nat
  | [], acc => acc
  | r :: rest, acc =>
      match chunkStep fetch address r.1 r.2 acc with
      | .error accBreak => accBreak
      | .ok acc' => scanChunks fetch address rest acc'

theorem scanLoopAux_eq_scanChunks (fetch : Int → Int → Except Unit (List RawLog))
    (address : Nat) (fuel : Nat) :
    ∀ (s f : Int) (acc : Option Nat),
      scanLoopAux fetch address fuel s f acc
        = scanChunks fetch address (buildRangesAux fuel s f) acc := by
  induction fuel with
  | zero => intro s f acc; rfl
  | succ fuel ih =>
      intro s f acc
      simp only [scanLoopAux, buildRangesAux]
      split
      case isTrue h =>
          simp only [scanChunks]
          cases hc : chunkStep fetch address (max (s - 50000 + 1) f) s acc with
          | error accBreak => rfl
          | ok acc' => exact ih _ f acc'
      case isFalse h => rfl

/-- C4 (amended): chunk-level fetch failures in the `get_last_transaction_date`
scan are not absorbed — the loop `break`s at the first chunk whose fetch or
per-log decoding raises. The scan equals a newest-first walk of the scheduled
chunk list that stops at the first raising chunk, so the remaining (older)
chunks are never scanned; in particular a raise on the very first chunk
returns the accumulator untouched, discarding the whole window. -/
theorem scan_stops_at_first_failure
    (fetch : Int → Int → Except Unit (List RawLog)) (address : Nat)
    (s f : Int) (acc : Option Nat) :
    scanLoop fetch address s f acc
        = scanChunks fetch address (buildRanges s f) acc ∧
      (s > f → chunkStep fetch address (max (s - 50000 + 1) f) s acc = .error acc →
        scanLoop fetch address s f acc = acc) := by
  constructor
  · exact scanLoopAux_eq_scanChunks fetch address _ s f acc
  · intro hs hc
    unfold scanLoop
    have hfuel : (s - f).toNat = ((s - f).toNat - 1) + 1 := by omega
    rw [hfuel]
    simp only [scanLoopAux, if_pos hs, hc]

/-- Backend oracle that raises on every chunk fetch. -/
def fetchAlwaysFail : Int → Int → Except Unit (List RawLog) := fun _ _ => .error ()

/-- C4 witness: with every fetch raising, the scan over the window
`[max(100 - 50000 + 1, 0), 100]` returns its initial accumulator `none`. -/
theorem scan_stops_at_first_failure_witness :
    (100 : Int) > 0 ∧
      chunkStep fetchAlwaysFail 5 (max ((100 : Int) - 50000 + 1) 0) 100 none
        = .error none ∧
      scanLoop fetchAlwaysFail 5 100 0 none = none :=
  ⟨by decide, rfl,
    (scan_stops_at_first_failure fetchAlwaysFail 5 100 0 none).2 (by decide) rfl⟩

/-- Oracle for the C4 counterexample: of the three chunks scheduled for
latest block 150000, the newest chunk is empty, the middle chunk's fetch
raises, and the oldest chunk holds a transfer touching address 5 at
block 42. -/
def fetchMidFail (a b : Int) : Except Unit (List RawLog) :=
  if b = 150000 then .ok []
  else if b = 100000 then .error ()
  else .ok [⟨[9, 5, 6], [100], 42⟩]

/-- The same oracle with the middle chunk merely empty instead of raising. -/
def fetchMidOk (a b : Int) : Except Unit (List RawLog) :=
  if b = 150000 then .ok []
  else if b = 100000 then .ok []
  else .ok [⟨[9, 5, 6], [100], 42⟩]

/-- Timestamp oracle that always succeeds with timestamp 999. -/
def getBlock999 : Nat → Except Unit Nat := fun _ => .ok 999

/-- C4 counterexample: with the middle chunk's fetch raising, the query for
address 5 returns 'N/A' — the remaining older chunk, which contains the
matching block-42 transfer, is never scanned. Running the same scan with the
middle chunk merely empty finds that transfer and resolves its date, showing
the failed chunk is what cut the scan short, not absence of data. -/
theorem scan_abandons_remaining_chunks :
    get_last_transaction_date fetchMidFail getBlock999 150000 5
        = LastDateResult.notAvailable ∧
      get_last_transaction_date fetchMidOk getBlock999 150000 5
        = LastDateResult.iso 999 := by
  constructor
  · rfl
  · rfl

/-- C5 (amended): when the scan finds a matching block `b ≠ 0` but
`get_block(b)` raises, the query degrades to the literal `'N/A'` without
aborting — which is exactly the value returned when no activity is found, so
the degraded outcome is not reported distinctly from no-activity. -/
theorem getblock_failure_degrades
    (fetch : Int → Int → Except Unit (List RawLog)) (getBlock : Nat → Except Unit Nat)
    (latestBlock : Int) (address : Nat) (b : Nat)
    (hscan : scanLoop fetch address latestBlock (max (latestBlock - 1000000) 0) none
        = some b)
    (hb : b ≠ 0) (hgb : getBlock b = .error ()) :
    get_last_transaction_date fetch getBlock latestBlock address
      = LastDateResult.notAvailable := by
  unfold get_last_transaction_date
  rw [hscan]
  simp [hb, hgb]

/-- Backend oracle whose every chunk holds one transfer 5 → 6 at block 7. -/
def fetchHit7 : Int → Int → Except Unit (List RawLog) := fun _ _ => .ok [⟨[9, 5, 6], [100], 7⟩]

/-- Backend oracle with no events anywhere. -/
def fetchNoEvents : Int → Int → Except Unit (List RawLog) := fun _ _ => .ok []

/-- Timestamp oracle that always raises. -/
def getBlockFail : Nat → Except Unit Nat := fun _ => .error ()

/-- C5 witness: address 5 last moved at block 7; `get_block(7)` raises; the
query returns 'N/A' instead of aborting. -/
theorem getblock_failure_degrades_witness :
    scanLoop fetchHit7 5 10 (max ((10 : Int) - 1000000) 0) none = some 7 ∧
      (7 : Nat) ≠ 0 ∧ getBlockFail 7 = .error () ∧
      get_last_transaction_date fetchHit7 getBlockFail 10 5
        = LastDateResult.notAvailable :=
  ⟨rfl, by decide, rfl,
    getblock_failure_degrades fetchHit7 getBlockFail 10 5 7 rfl (by decide) rfl⟩

/-- C5 counterexample: a found block whose timestamp lookup raises and a scan
that finds no activity at all produce the same result — the literal 'N/A' —
so the degraded outcome is not distinguishable from no-activity. -/
theorem unknown_date_equals_no_activity :
    get_last_transaction_date fetchHit7 getBlockFail 10 5
        = LastDateResult.notAvailable ∧
      get_last_transaction_date fetchNoEvents getBlockFail 10 5
        = LastDateResult.notAvailable ∧
      get_last_transaction_date fetchHit7 getBlockFail 10 5
        = get_last_transaction_date fetchNoEvents getBlockFail 10 5 := by
  refine ⟨rfl, rfl, rfl⟩

/-- C10: when the maximum matching block of the window is block 0, the
found-block test `if last_transaction_block:` is falsy, so the query returns
'N/A' — the no-activity value — under every `get_block` oracle (no timestamp
lookup is attempted); a timestamp lookup is consulted only when the maximum
matching block is strictly positive, as the second conjunct shows. -/
theorem block_zero_treated_as_no_hit
    (fetch : Int → Int → Except Unit (List RawLog)) (latestBlock : Int) (address : Nat) :
    (scanLoop fetch address latestBlock (max (latestBlock - 1000000) 0) none = some 0 →
        ∀ getBlock : Nat → Except Unit Nat,
          get_last_transaction_date fetch getBlock latestBlock address
            = LastDateResult.notAvailable) ∧
      (∀ b : Nat,
        scanLoop fetch address latestBlock (max (latestBlock - 1000000) 0) none = some b →
        0 < b →
        ∀ getBlock : Nat → Except Unit Nat,
          get_last_transaction_date fetch getBlock latestBlock address
            = match getBlock b with
              | .ok ts => LastDateResult.iso ts
              | .error _ => LastDateResult.notAvailable) := by
  constructor
  · intro hscan getBlock
    unfold get_last_transaction_date
    rw [hscan]
    simp
  · intro b hscan hb getBlock
    unfold get_last_transaction_date
    rw [hscan]
    simp only [if_pos (by omega : b ≠ 0)]

/-- Backend oracle whose only event touches address 5 at block 0. -/
def fetchHitZero : Int → Int → Except Unit (List RawLog) :=
  fun _ _ => .ok [⟨[9, 5, 6], [100], 0⟩]

/-- C10 witness: the only matching transfer sits in block 0; the query
returns 'N/A' even though the timestamp oracle would have succeeded. -/
theorem block_zero_treated_as_no_hit_witness :
    scanLoop fetchHitZero 5 10 (max ((10 : Int) - 1000000) 0) none = some 0 ∧
      get_last_transaction_date fetchHitZero getBlock999 10 5
        = LastDateResult.notAvailable :=
  ⟨rfl, (block_zero_treated_as_no_hit fetchHitZero 10 5).1 rfl getBlock999⟩

-- Top-N selection (get_top_balances, lines 112-123)

/-- Stable descending insertion: walk past entries with strictly greater
balance and insert before the first entry whose balance is less than or equal
— so an inserted entry lands before every equal-balance entry of the tail. -/
def insertDesc (p : Nat × Int) : List (Nat × Int) → List (Nat × Int)
  | [] => [p]
  | q :: rest => if p.2 < q.2 then q :: insertDesc p rest else p :: q :: rest

/-- Python's `sorted(balances.items(), key=lambda x: x[1], reverse=True)`
(line 122): a stable sort, descending by balance, of the ledger items in
insertion (first-seen) order. Stable sorting under a fixed key order has a
unique result, so this insertion sort is the faithful model of CPython's
stable sort. -/
def sortDesc (l : List (Nat × Int)) : List (Nat × Int) := l.foldr insertDesc []

/-- Ranking step of `get_top_balances` (lines 112-123): stable-sort the
ledger items descending by balance and truncate with `[:top_n]`. -/
def get_top_balances (balances : List (Nat × Int)) (top_n : Nat) : List (Nat × Int) :=
  (sortDesc balances).take top_n

theorem mem_insertDesc (p x : Nat × Int) (l : List (Nat × Int)) :
    x ∈ insertDesc p l ↔ x = p ∨ x ∈ l := by
  induction l with
  | nil => simp [insertDesc]
  | cons q rest ih =>
      by_cases h : p.2 < q.2
      · simp [insertDesc, h, ih]
        tauto
      · simp [insertDesc, h]

theorem pairwise_insertDesc (p : Nat × Int) (l : List (Nat × Int))
    (h : l.Pairwise (fun a b => b.2 ≤ a.2)) :
    (insertDesc p l).Pairwise (fun a b => b.2 ≤ a.2) := by
  induction l with
  | nil => simp [insertDesc]
  | cons q rest ih =>
      rw [List.pairwise_cons] at h
      by_cases hlt : p.2 < q.2
      · simp only [insertDesc, if_pos hlt]
        rw [List.pairwise_cons]
        refine ⟨?_, ih h.2⟩
        intro x hx
        rcases (mem_insertDesc p x rest).mp hx with rfl | hx
        · omega
        · exact h.1 x hx
      · simp only [insertDesc, if_neg hlt]
        rw [List.pairwise_cons]
        refine ⟨?_, List.pairwise_cons.mpr h⟩
        intro x hx
        rcases List.mem_cons.mp hx with rfl | hx
        · omega
        · have := h.1 x hx
          omega

theorem sortDesc_pairwise (l : List (Nat × Int)) :
    (sortDesc l).Pairwise (fun a b => b.2 ≤ a.2) := by
  induction l with
  | nil => simp [sortDesc]
  | cons p rest ih => exact pairwise_insertDesc p _ ih

theorem length_insertDesc (p : Nat × Int) (l : List (Nat × Int)) :
    (insertDesc p l).length = l.length + 1 := by
  induction l with
  | nil => rfl
  | cons q rest ih => by_cases h : p.2 < q.2 <;> simp [insertDesc, h, ih]

theorem length_sortDesc (l : List (Nat × Int)) : (sortDesc l).length = l.length := by
  induction l with
  | nil => rfl
  | cons p rest ih => simp [sortDesc, length_insertDesc, ih] at *

theorem filter_insertDesc (p : Nat × Int) (l : List (Nat × Int)) (v : Int) :
    (insertDesc p l).filter (fun q => q.2 == v)
      = if p.2 = v then p :: l.filter (fun q => q.2 == v)
        else l.filter (fun q => q.2 == v) := by
  induction l with
  | nil => by_cases h : p.2 = v <;> simp [insertDesc, h]
  | cons q rest ih =>
      by_cases hlt : p.2 < q.2
      · simp only [insertDesc, if_pos hlt]
        by_cases hqv : q.2 = v
        · have hpv : ¬ p.2 = v := by omega
          simp [List.filter_cons, hqv, ih, hpv]
        · simp [List.filter_cons, hqv, ih]
      · simp only [insertDesc, if_neg hlt]
        by_cases hpv : p.2 = v <;> simp [List.filter_cons, hpv]

theorem filter_sortDesc (l : List (Nat × Int)) (v : Int) :
    (sortDesc l).filter (fun q => q.2 == v) = l.filter (fun q => q.2 == v) := by
  induction l with
  | nil => rfl
  | cons p rest ih =>
      show (insertDesc p (sortDesc rest)).filter (fun q => q.2 == v) = _
      rw [filter_insertDesc]
      by_cases hpv : p.2 = v <;> simp [List.filter_cons, hpv, ih]

/-- C3: for every ledger and every `n ≥ 0`, `get_top_balances` returns a
ranking sorted descending by balance, of length `min n |L|` (in particular
empty for `n = 0`), and entries with equal balances keep their first-seen
ledger order: for every balance value, the ranking's entries with that
balance form an order-preserving sublist of the ledger's. -/
theorem get_top_balances_spec (l : List (Nat × Int)) (n : Nat) :
    (get_top_balances l n).Pairwise (fun a b => b.2 ≤ a.2) ∧
      (get_top_balances l n).length = min n l.length ∧
      (∀ v : Int,
        List.Sublist ((get_top_balances l n).filter (fun q => q.2 == v))
          (l.filter (fun q => q.2 == v))) := by
  refine ⟨?_, ?_, ?_⟩
  · exact (sortDesc_pairwise l).sublist (List.take_sublist n (sortDesc l))
  · rw [get_top_balances, List.length_take, length_sortDesc]
  · intro v
    have h1 : List.Sublist ((get_top_balances l n).filter (fun q => q.2 == v))
        ((sortDesc l).filter (fun q => q.2 == v)) :=
      (List.take_sublist n (sortDesc l)).filter _
    rw [filter_sortDesc] at h1
    exact h1
